import Mathlib

set_option linter.unusedVariables false

namespace Minigrep

/-- Strings of the Rust source are modelled as lists of characters. -/
abbrev Str := List Char

/-- Splits a character list at every newline character, keeping empty
segments; this is the segmentation underlying Rust's `str::lines`.
The result is always non-empty. -/
def splitOnNewline : Str → List Str
  | [] => [[]]
  | c :: cs =>
    if c = '\n' then [] :: splitOnNewline cs
    else
      match splitOnNewline cs with
      | [] => [[c]]
      | l :: ls => (c :: l) :: ls

/-- Removes one trailing carriage return, as Rust's `str::lines` does on
every segment that was terminated by a newline. -/
def stripTrailingCR (l : Str) : Str :=
  if l.getLast? = some '\r' then l.dropLast else l

/-- Reassembles newline-separated segments into the lines Rust's
`str::lines` yields: every segment that was followed by a newline loses a
trailing carriage return, and a final empty segment (arising from a
trailing newline, or from empty content) yields no line at all. -/
def assembleLines : List Str → List Str
  | [] => []
  | [seg] => if seg = [] then [] else [seg]
  | seg :: rest => stripTrailingCR seg :: assembleLines rest

/-- Model of Rust's `contents.lines()` as used by `search` and
`search_case_insensitive` in `src/lib.rs`. -/
def rustLines (contents : Str) : List Str :=
  assembleLines (splitOnNewline contents)

/-- Auxiliary for substring containment: `isLeading n h` holds when `n`
occurs at the very start of `h`. -/
def isLeading : Str → Str → Bool
  | [], _ => true
  | _ :: _, [] => false
  | a :: as, b :: bs => a == b && isLeading as bs

/-- Model of Rust's `haystack.contains(needle)` with a string pattern:
contiguous substring containment. -/
def containsSub : Str → Str → Bool
  | [], n => isLeading n []
  | b :: bs, n => isLeading n (b :: bs) || containsSub bs n

/-- Model of the Unicode `Cased` property used by the Rust standard
library's lowercasing (library code outside this repository), restricted
to the repertoire this development manipulates: the basic latin letters
and the unaccented Greek letters (capitals `Α`–`Ω` without the unassigned
`0x3A2`, smalls `α`–`ω` with final sigma `ς`). -/
def isCased (c : Char) : Bool :=
  c.isAlpha ||
  decide (0x391 ≤ c.toNat ∧ c.toNat ≤ 0x3A9 ∧ c.toNat ≠ 0x3A2) ||
  decide (0x3B1 ≤ c.toNat ∧ c.toNat ≤ 0x3C9)

/-- Model of the Unicode `Case_Ignorable` property, restricted to the
apostrophe and the middle dots (`0x27`, `0xB7`, the Greek ano teleia
`0x387`); the remaining case-ignorable characters lie outside the
repertoire this development manipulates. -/
def isCaseIgnorable (c : Char) : Bool :=
  decide (c.toNat = 0x27 ∨ c.toNat = 0xB7 ∨ c.toNat = 0x387)

/-- Model of the standard library's `case_ignorable_then_cased`: skip
case-ignorable characters and test whether the first remaining character
is cased. -/
def caseIgnorableThenCased (l : Str) : Bool :=
  match l.dropWhile isCaseIgnorable with
  | [] => false
  | c :: _ => isCased c

/-- Model of `char::to_lowercase` (library code outside this repository)
as a single-character mapping: lowercases the basic latin letters via
`Char.toLower` and the unaccented Greek capitals by the `+0x20` offset of
the Greek block; characters outside this development's repertoire are
left unchanged. -/
def charToLower (c : Char) : Char :=
  if 0x391 ≤ c.toNat ∧ c.toNat ≤ 0x3A9 ∧ c.toNat ≠ 0x3A2 then
    Char.ofNat (c.toNat + 0x20)
  else c.toLower

/-- Model of the loop inside the Rust standard library's
`str::to_lowercase` (library code outside this repository): every
character except capital sigma is mapped on its own; `Σ` follows the
`Final_Sigma` rule of `map_uppercase_sigma`, becoming `ς` when the
preceding characters are case-ignorables led by a cased letter and the
following characters are not, and `σ` otherwise. `prev` holds the
characters already consumed, nearest first, mirroring
`from[..i].chars().rev()`. -/
def toLowercaseAux : Str → Str → Str
  | _, [] => []
  | prev, c :: rest =>
    if c = 'Σ' then
      (if caseIgnorableThenCased prev && !caseIgnorableThenCased rest
        then 'ς' else 'σ') :: toLowercaseAux (c :: prev) rest
    else charToLower c :: toLowercaseAux (c :: prev) rest

/-- Model of Rust's `str::to_lowercase` as called by
`search_case_insensitive` in `src/lib.rs`: context-sensitive on capital
sigma, character-wise everywhere else (on this development's
repertoire). -/
def to_lowercase (s : Str) : Str := toLowercaseAux [] s

/-- Model of `search` in `src/lib.rs`: walks the lines of `contents` in
order and pushes every line that contains `query`. -/
def search (query contents : Str) : List Str :=
  (rustLines contents).filter (fun line => containsSub line query)

/-- Model of `search_case_insensitive` in `src/lib.rs`: lowercases the
query once, then pushes every line whose lowercasing contains it; the
pushed line is the original, non-folded line text. -/
def search_case_insensitive (query contents : Str) : List Str :=
  (rustLines contents).filter
    (fun line => containsSub (to_lowercase line) (to_lowercase query))

/-- Model of the `Config` struct in `src/lib.rs`. -/
structure Config where
  query : Str
  filename : Str
  case_sensitive : Bool
deriving DecidableEq

/-- Model of `Config::new` in `src/lib.rs`. The process environment is
passed explicitly: `envCaseInsensitive` is the value of the
`CASE_INSENSITIVE` variable when it is set, and `none` when `env::var`
returns an error (variable unset), so `case_sensitive` is the model of
`env::var("CASE_INSENSITIVE").is_err()`. -/
def Config.new (envCaseInsensitive : Option Str) (args : List Str) :
    Except String Config :=
  if h : args.length < 3 then .error "Not enough arguments"
  else
    .ok { query := args.get ⟨1, by omega⟩,
          filename := args.get ⟨2, by omega⟩,
          case_sensitive := envCaseInsensitive.isNone }

/-- Model of `run` in `src/lib.rs`. File reading is abstracted as an
oracle `fs` from filenames to either an error or the file text. The
result pair is the function's return value together with the lines
printed to standard output, in order. Exactly as in the source, the
branch on `config.case_sensitive` selects `results`, but the print loop
iterates `search(&config.query, &contents)` instead of `results`. -/
def run (fs : Str → Except String Str) (config : Config) :
    Except String Unit × List Str :=
  match fs config.filename with
  | .error e => (.error e, [])
  | .ok contents =>
    let results :=
      if config.case_sensitive then search config.query contents
      else search_case_insensitive config.query contents
    (.ok (), search config.query contents)

/-- The file content of the upstream `case_insensitive` test in
`src/lib.rs`. -/
def demoContent : Str :=
  ("Rust:\nsafe, fast, productive.\nPick three.\nTrust me.").data

/-- A configuration that selects the case-insensitive search. -/
def demoConfig : Config :=
  { query := ("rUsT").data
    filename := ("poem.txt").data
    case_sensitive := false }

/-- The argument list of the upstream `should_create_config` test. -/
def demoArgs : List Str :=
  [("prog").data, ("query").data, ("filename").data]

/-- An argument list whose query and filename match `demoConfig`. -/
def demoArgsCI : List Str :=
  [("prog").data, ("rUsT").data, ("poem.txt").data]

/-- A character list offers an alphabetic case-variant opportunity when
it contains a cased letter. -/
def hasCaseVariant (s : Str) : Bool := s.any isCased

/-- Splitting on newlines always produces at least one segment. -/
theorem splitOnNewline_ne_nil (s : Str) : splitOnNewline s ≠ [] := by
  cases s with
  | nil => simp [splitOnNewline]
  | cons c cs =>
    simp only [splitOnNewline]
    split
    · simp
    · split <;> simp

/-- No segment produced by splitting on newlines contains a newline. -/
theorem splitOnNewline_no_newline :
    ∀ (s : Str), ∀ l ∈ splitOnNewline s, '\n' ∉ l := by
  intro s
  induction s with
  | nil =>
    intro l hl
    simp [splitOnNewline] at hl
    simp [hl]
  | cons c cs ih =>
    intro l hl
    by_cases hc : c = '\n'
    · simp only [splitOnNewline, if_pos hc, List.mem_cons] at hl
      rcases hl with rfl | hl
      · simp
      · exact ih l hl
    · simp only [splitOnNewline, if_neg hc] at hl
      cases hsp : splitOnNewline cs with
      | nil => exact absurd hsp (splitOnNewline_ne_nil cs)
      | cons hd tl =>
        rw [hsp] at hl
        rcases List.mem_cons.mp hl with rfl | hl
        · intro hmem
          rcases List.mem_cons.mp hmem with h | h
          · exact hc h.symm
          · exact ih hd (hsp ▸ List.mem_cons_self hd tl) h
        · exact ih l (hsp ▸ List.mem_cons_of_mem hd hl)

/-- Stripping a trailing carriage return only removes characters. -/
theorem mem_stripTrailingCR {c : Char} {l : Str}
    (h : c ∈ stripTrailingCR l) : c ∈ l := by
  unfold stripTrailingCR at h
  split at h
  · exact List.dropLast_subset l h
  · exact h

/-- Every assembled line is a segment or a carriage-return-stripped
segment of the input. -/
theorem mem_assembleLines :
    ∀ (segs : List Str) (l : Str), l ∈ assembleLines segs →
      ∃ seg ∈ segs, l = seg ∨ l = stripTrailingCR seg := by
  intro segs
  induction segs with
  | nil =>
    intro l hl
    simp [assembleLines] at hl
  | cons seg rest ih =>
    intro l hl
    cases rest with
    | nil =>
      by_cases hseg : seg = []
      · simp [assembleLines, hseg] at hl
      · simp [assembleLines, hseg] at hl
        exact ⟨seg, by simp, Or.inl hl⟩
    | cons b bs =>
      simp only [assembleLines] at hl
      rcases List.mem_cons.mp hl with h | h
      · exact ⟨seg, List.mem_cons_self seg (b :: bs), Or.inr h⟩
      · obtain ⟨sg, hsg, hor⟩ := ih l h
        exact ⟨sg, List.mem_cons_of_mem seg hsg, hor⟩

/-- The lines Rust's `str::lines` yields never contain a newline. -/
theorem rustLines_no_newline {c l : Str} (h : l ∈ rustLines c) :
    '\n' ∉ l := by
  obtain ⟨seg, hseg, hor⟩ := mem_assembleLines (splitOnNewline c) l h
  have hnl : '\n' ∉ seg := splitOnNewline_no_newline c seg hseg
  rcases hor with rfl | rfl
  · exact hnl
  · exact fun hc => hnl (mem_stripTrailingCR hc)

/-- `isLeading n h` decides whether `n` starts `h`. -/
theorem isLeading_iff (n h : Str) :
    isLeading n h = true ↔ ∃ t, n ++ t = h := by
  induction n generalizing h with
  | nil => simp [isLeading]
  | cons a as ih =>
    cases h with
    | nil => simp [isLeading]
    | cons b bs =>
      simp only [isLeading, Bool.and_eq_true, beq_iff_eq, ih]
      constructor
      · rintro ⟨rfl, t, rfl⟩
        exact ⟨t, rfl⟩
      · rintro ⟨t, ht⟩
        injection ht with h1 h2
        exact ⟨h1, t, h2⟩

/-- `containsSub h n` decides substring containment of `n` in `h`. -/
theorem containsSub_iff (h n : Str) :
    containsSub h n = true ↔ ∃ s t, s ++ n ++ t = h := by
  induction h with
  | nil =>
    simp only [containsSub, isLeading_iff]
    constructor
    · rintro ⟨t, ht⟩
      exact ⟨[], t, ht⟩
    · rintro ⟨s, t, hst⟩
      rcases List.append_eq_nil.mp hst with ⟨h1, h2⟩
      rcases List.append_eq_nil.mp h1 with ⟨rfl, rfl⟩
      exact ⟨[], rfl⟩
  | cons b bs ih =>
    simp only [containsSub, Bool.or_eq_true, isLeading_iff, ih]
    constructor
    · rintro (⟨t, ht⟩ | ⟨s, t, hst⟩)
      · exact ⟨[], t, by simpa using ht⟩
      · exact ⟨b :: s, t, by simp [hst]⟩
    · rintro ⟨s, t, hst⟩
      cases s with
      | nil => exact Or.inl ⟨t, by simpa using hst⟩
      | cons a s =>
        injection hst with h1 h2
        exact Or.inr ⟨s, t, h2⟩

/-- The empty needle is contained in every haystack. -/
theorem containsSub_nil (l : Str) : containsSub l [] = true := by
  cases l <;> simp [containsSub, isLeading]

/-- On a segment free of capital sigma, lowercasing acts character-wise
and the consumed-character state advances past the segment. -/
theorem toLowercaseAux_sigmaFree :
    ∀ (q : Str), 'Σ' ∉ q → ∀ (t p : Str),
      toLowercaseAux p (q ++ t) =
        q.map charToLower ++ toLowercaseAux (q.reverse ++ p) t := by
  intro q
  induction q with
  | nil => intro _ t p; simp
  | cons c q ih =>
    intro hq t p
    have hc : c ≠ 'Σ' := fun h => hq (h ▸ List.mem_cons_self c q)
    have hq' : 'Σ' ∉ q := fun h => hq (List.mem_cons_of_mem c h)
    simp only [List.cons_append, toLowercaseAux, if_neg hc, List.append_eq]
    rw [ih hq' t (c :: p)]
    simp

/-- Lowercasing a string without capital sigma is the character-wise
map. -/
theorem to_lowercase_sigmaFree {q : Str} (hq : 'Σ' ∉ q) :
    to_lowercase q = q.map charToLower := by
  have h := toLowercaseAux_sigmaFree q hq [] []
  simpa [to_lowercase, toLowercaseAux] using h

/-- Every consumed character contributes exactly one output character,
whatever the context decides it to be. -/
theorem toLowercaseAux_cons (p : Str) (c : Char) (rest : Str) :
    ∃ d : Char,
      toLowercaseAux p (c :: rest) = d :: toLowercaseAux (c :: p) rest := by
  by_cases hc : c = 'Σ'
  · subst hc
    refine ⟨if caseIgnorableThenCased p && !caseIgnorableThenCased rest
        then 'ς' else 'σ', ?_⟩
    simp [toLowercaseAux]
  · exact ⟨charToLower c, by simp [toLowercaseAux, hc]⟩

/-- A sigma-free middle segment survives lowercasing contiguously: the
context-sensitive rule only ever affects capital sigmas, each of which
still yields exactly one character. -/
theorem toLowercaseAux_contains_middle (q : Str) (hq : 'Σ' ∉ q) :
    ∀ (s t p : Str), ∃ a b,
      toLowercaseAux p (s ++ q ++ t) = a ++ q.map charToLower ++ b := by
  intro s
  induction s with
  | nil =>
    intro t p
    refine ⟨[], toLowercaseAux (q.reverse ++ p) t, ?_⟩
    simpa using toLowercaseAux_sigmaFree q hq t p
  | cons c s ih =>
    intro t p
    obtain ⟨a, b, hab⟩ := ih t (c :: p)
    obtain ⟨d, hd⟩ := toLowercaseAux_cons p c (s ++ q ++ t)
    refine ⟨d :: a, b, ?_⟩
    rw [List.cons_append, List.cons_append, hd, hab]
    simp

/-- Lowercasing preserves containment of sigma-free needles. -/
theorem containsSub_to_lowercase {l q : Str} (hq : 'Σ' ∉ q)
    (h : containsSub l q = true) :
    containsSub (to_lowercase l) (to_lowercase q) = true := by
  rw [containsSub_iff] at h ⊢
  obtain ⟨s, t, rfl⟩ := h
  obtain ⟨a, b, hab⟩ := toLowercaseAux_contains_middle q hq s t []
  rw [to_lowercase_sigmaFree hq]
  exact ⟨a, b, hab.symm⟩

/-- C1: the claim fails on the source. At a configuration whose flag
selects the case-insensitive search, `run` still prints the result of the
case-sensitive `search`: the branch on `case_sensitive` binds `results`,
but the print loop iterates `search(&config.query, &contents)`, so the
selected variant's lines (here `["Rust:", "Trust me."]`) are discarded
and nothing is printed. -/
theorem run_ignores_selected_results :
    run (fun _ => .ok demoContent) demoConfig = (.ok (), []) ∧
    demoConfig.case_sensitive = false ∧
    search_case_insensitive demoConfig.query demoContent
      = [("Rust:").data, ("Trust me.").data] :=
  ⟨rfl, rfl, by decide⟩

/-- C2: `search` returns exactly the lines of the content that contain
the query as a substring, in original order — the result is a subsequence
of the content's line sequence, each returned line is a line of the
content containing the query, and conversely every content line
containing the query appears in the result. -/
theorem search_characterization (q c : Str) :
    List.Sublist (search q c) (rustLines c) ∧
    (∀ l, l ∈ search q c → l ∈ rustLines c ∧ containsSub l q = true) ∧
    (∀ l, l ∈ rustLines c → containsSub l q = true → l ∈ search q c) := by
  refine ⟨List.filter_sublist _, ?_, ?_⟩
  · intro l hl
    simpa [search, List.mem_filter] using hl
  · intro l hm hc
    simp [search, List.mem_filter, hm, hc]

theorem search_characterization_witness :
    List.Sublist (search (("st").data) demoContent) (rustLines demoContent) ∧
    (∀ l, l ∈ search (("st").data) demoContent →
      l ∈ rustLines demoContent ∧ containsSub l (("st").data) = true) ∧
    (∀ l, l ∈ rustLines demoContent → containsSub l (("st").data) = true →
      l ∈ search (("st").data) demoContent) :=
  search_characterization (("st").data) demoContent

/-- C3: the claim as stated fails on the source. Rust's lowercasing of
capital sigma is context-sensitive: the query `Σ` (non-empty, with a
case-variant opportunity) lowercases in isolation to `σ`, while inside
the line `ΑΣ` the sigma is final and lowercases to `ς`, so the
case-sensitive search finds the line but the case-insensitive search
does not and returns strictly fewer lines. -/
theorem search_subset_insensitive_cex :
    ("Σ").data ≠ [] ∧ hasCaseVariant (("Σ").data) = true ∧
    ¬((search (("Σ").data) (("ΑΣ").data)).length ≤
        (search_case_insensitive (("Σ").data) (("ΑΣ").data)).length) := by
  refine ⟨by decide, by decide, by decide⟩

/-- C3 amended: for a non-empty query with at least one alphabetic
case-variant opportunity and no capital sigma — the one character whose
lowercasing is context-sensitive — the case-insensitive search returns
at least as many lines as the case-sensitive one, and every line the
case-sensitive search returns is also returned by the case-insensitive
search. -/
theorem search_subset_insensitive (q c : Str) (hq : q ≠ [])
    (hvar : hasCaseVariant q = true) (hsig : 'Σ' ∉ q) :
    (search q c).length ≤ (search_case_insensitive q c).length ∧
    ∀ l, l ∈ search q c → l ∈ search_case_insensitive q c := by
  have hsub : List.Sublist (search q c) (search_case_insensitive q c) := by
    simp only [search, search_case_insensitive]
    exact List.monotone_filter_right _
      (fun a ha => containsSub_to_lowercase hsig ha)
  exact ⟨hsub.length_le, fun l hl => hsub.subset hl⟩

theorem search_subset_insensitive_witness :
    ("rUsT").data ≠ [] ∧ hasCaseVariant (("rUsT").data) = true ∧
    'Σ' ∉ ("rUsT").data ∧
    ((search (("rUsT").data) demoContent).length ≤
      (search_case_insensitive (("rUsT").data) demoContent).length ∧
     ∀ l, l ∈ search (("rUsT").data) demoContent →
       l ∈ search_case_insensitive (("rUsT").data) demoContent) :=
  ⟨by decide, by decide, by decide,
    search_subset_insensitive (("rUsT").data) demoContent
      (by decide) (by decide) (by decide)⟩

/-- C4: the case-insensitive search applies the same lowercasing to the
query and to each candidate line before the containment check, returns
the original (non-folded) line text, and on the documented example
content with query `rUsT` returns exactly `["Rust:", "Trust me."]`. -/
theorem search_case_insensitive_spec :
    (∀ q c l, l ∈ search_case_insensitive q c →
      l ∈ rustLines c ∧
        containsSub (to_lowercase l) (to_lowercase q) = true) ∧
    (∀ q c l, l ∈ rustLines c →
      containsSub (to_lowercase l) (to_lowercase q) = true →
        l ∈ search_case_insensitive q c) ∧
    search_case_insensitive (("rUsT").data) demoContent
      = [("Rust:").data, ("Trust me.").data] := by
  refine ⟨?_, ?_, by decide⟩
  · intro q c l hl
    simpa [search_case_insensitive, List.mem_filter] using hl
  · intro q c l hm hc
    simp [search_case_insensitive, List.mem_filter, hm, hc]

/-- C5: `Config::new` succeeds exactly on argument lists of length at
least three, and on every shorter list it fails with the
insufficient-arguments error; the constructor performs no file access at
all (its model takes no file-system oracle). -/
theorem config_new_insufficient (env : Option Str) (args : List Str) :
    ((∃ cfg, Config.new env args = .ok cfg) ↔ 3 ≤ args.length) ∧
    (args.length < 3 →
      Config.new env args = .error "Not enough arguments") := by
  constructor
  · constructor
    · rintro ⟨cfg, hcfg⟩
      by_contra hlen
      push_neg at hlen
      rw [Config.new, dif_pos hlen] at hcfg
      exact Except.noConfusion hcfg
    · intro hlen
      exact ⟨_, by rw [Config.new, dif_neg (by omega)]⟩
  · intro hlen
    rw [Config.new, dif_pos hlen]

theorem config_new_insufficient_witness :
    ((∃ cfg, Config.new none [("prog").data] = .ok cfg) ↔
      3 ≤ [("prog").data].length) ∧
    ([("prog").data].length < 3 →
      Config.new none [("prog").data] = .error "Not enough arguments") :=
  config_new_insufficient none [("prog").data]

/-- C6: on every argument list of length at least three, `Config::new`
succeeds and the configuration carries element 1 as the query and
element 2 as the filename, unmodified. -/
theorem config_new_success (env : Option Str) (args : List Str)
    (h : 3 ≤ args.length) :
    Config.new env args =
      .ok { query := args.get ⟨1, by omega⟩,
            filename := args.get ⟨2, by omega⟩,
            case_sensitive := env.isNone } := by
  rw [Config.new, dif_neg (by omega)]

theorem config_new_success_witness :
    Config.new none demoArgs =
      .ok { query := ("query").data,
            filename := ("filename").data,
            case_sensitive := true } :=
  config_new_success none demoArgs (by decide)

/-- C7: a successfully constructed configuration is case-sensitive
exactly when the `CASE_INSENSITIVE` environment toggle is absent and
case-insensitive exactly when it is present, and the toggle's value is
ignored. -/
theorem config_case_toggle (env : Option Str) (args : List Str)
    (cfg : Config) (h : Config.new env args = .ok cfg) :
    (cfg.case_sensitive = false ↔ env ≠ none) ∧
    (cfg.case_sensitive = true ↔ env = none) ∧
    (∀ v w : Str, Config.new (some v) args = Config.new (some w) args) := by
  refine ⟨?_, ?_, ?_⟩
  · rw [Config.new] at h
    split at h
    · exact Except.noConfusion h
    · injection h with h
      rw [← h]
      cases env <;> simp [Option.isNone]
  · rw [Config.new] at h
    split at h
    · exact Except.noConfusion h
    · injection h with h
      rw [← h]
      cases env <;> simp [Option.isNone]
  · intro v w
    by_cases hl : args.length < 3 <;> simp [Config.new, hl, Option.isNone]

theorem config_case_toggle_witness :
    (demoConfig.case_sensitive = false ↔
      (some (("1").data) : Option Str) ≠ none) ∧
    (demoConfig.case_sensitive = true ↔
      (some (("1").data) : Option Str) = none) ∧
    (∀ v w : Str,
      Config.new (some v) demoArgsCI = Config.new (some w) demoArgsCI) :=
  config_case_toggle (some (("1").data)) demoArgsCI demoConfig rfl

/-- C8: with the empty query, the case-sensitive search on non-empty
content returns every line of the content in unchanged order; and on
empty content the case-sensitive search returns the empty sequence for
every query. -/
theorem search_empty_cases (c q : Str) (hc : c ≠ []) :
    search [] c = rustLines c ∧ search q [] = [] := by
  constructor
  · rw [search]
    exact List.filter_eq_self.mpr fun a _ => containsSub_nil a
  · rfl

theorem search_empty_cases_witness :
    search [] (("a").data) = rustLines (("a").data) ∧
    search (("q").data) [] = [] :=
  search_empty_cases (("a").data) (("q").data) (by decide)

/-- C9: whenever the file oracle fails on the configured filename, `run`
propagates that error as its result, carrying the underlying cause, and
writes nothing to standard output (no search result is ever printed). -/
theorem run_read_failure (fs : Str → Except String Str) (config : Config)
    (e : String) (h : fs config.filename = .error e) :
    run fs config = (.error e, []) := by
  rw [run, h]

theorem run_read_failure_witness :
    run (fun _ => .error "No such file or directory") demoConfig =
      (.error "No such file or directory", []) :=
  run_read_failure (fun _ => .error "No such file or directory")
    demoConfig "No such file or directory" rfl

/-- C10: every line considered by `search` or `search_case_insensitive`
is free of newline characters, and a single trailing newline produces no
trailing empty line: the case-sensitive search with the empty query on
content consisting of one character followed by a newline returns exactly
that one-character line. -/
theorem lines_no_newline :
    (∀ q c l, l ∈ search q c → '\n' ∉ l) ∧
    (∀ q c l, l ∈ search_case_insensitive q c → '\n' ∉ l) ∧
    search [] (("a\n").data) = [("a").data] := by
  refine ⟨?_, ?_, by decide⟩
  · intro q c l hl
    have hm : l ∈ rustLines c := List.filter_sublist _ |>.subset hl
    exact rustLines_no_newline hm
  · intro q c l hl
    have hm : l ∈ rustLines c := List.filter_sublist _ |>.subset hl
    exact rustLines_no_newline hm

end Minigrep
